import Mathlib

/-!
Shallow embedding of the aggregation core of the repository
(`src/src/lib.rs` of kubectl-view-allocations).

The embedding follows the source closely:

* `Location`, `Resource`, `ResourceQualifier`, `QtyByQualifier` mirror the
  structs and enums at `src/src/lib.rs:22-51`.
* `add`, `QtyByQualifier.calc_free`, `sum_by_qualifier`, `make_qualifiers`,
  `make_group_x_qualifier`, `accept_resource` mirror the functions at
  `src/src/lib.rs:53-153`.
* `GroupBy` and its key-extraction functions mirror `src/src/lib.rs:430-470`.

The quantity type `Qty` lives in the crate module `qty.rs`, which is not
among the provided sources; it is modelled from the spec (an exact,
non-negative numeric amount with lossless add/subtract/max/compare), here as
an exact rational number.  Likewise the parse/format pipeline of §4.1 of the
spec is modelled from the spec at the end of the definitions section.

The source's `into_group_map()` (itertools) builds a `HashMap<K, Vec<V>>`
whose per-key value lists preserve input order while the key enumeration
order is unspecified.  The embedding enumerates keys through
`List.dedup` of the key list (a fixed duplicate-free enumeration of exactly
the keys that occur); the theorems about `make_qualifiers` only concern the
output after its final sort by key path, which quotients away the
enumeration order.
-/

/-- Modelled from the spec: the missing `qty.rs` module defines `Qty`, an
exact unit-scaled numeric amount ("integer mantissa plus an exponent") with
lossless addition, subtraction, `max` and total-order comparison; it is
modelled by its exact numeric value, a rational number.
`Qty::default()` is the zero quantity. -/
abbrev Qty : Type := ℚ

/-- Mirror of struct `Location` (src/src/lib.rs:22-27).  The source field
`namespace` is a Lean keyword and is rendered `nspace` here. -/
structure Location where
  node_name : Option String
  nspace : Option String
  pod_name : Option String
deriving DecidableEq, Repr

/-- Mirror of enum `ResourceQualifier` (src/src/lib.rs:37-43). -/
inductive ResourceQualifier : Type where
  | Limit : ResourceQualifier
  | Requested : ResourceQualifier
  | Allocatable : ResourceQualifier
  | Utilization : ResourceQualifier
deriving DecidableEq, Repr

/-- Mirror of struct `Resource` (src/src/lib.rs:29-35). -/
structure Resource where
  kind : String
  quantity : Qty
  location : Location
  qualifier : ResourceQualifier
deriving DecidableEq, Repr

/-- Mirror of struct `QtyByQualifier` (src/src/lib.rs:45-51). -/
structure QtyByQualifier where
  limit : Option Qty
  requested : Option Qty
  allocatable : Option Qty
  utilization : Option Qty
deriving DecidableEq, Repr

/-- Mirror of `QtyByQualifier::default()`: all four buckets `None`. -/
def QtyByQualifier.default : QtyByQualifier :=
  ⟨none, none, none, none⟩

/-- Mirror of `fn add` (src/src/lib.rs:53-55):
`lhs.map(|l| &l + rhs).or_else(|| Some(rhs.clone()))`. -/
def add (lhs : Option Qty) (rhs : Qty) : Option Qty :=
  match lhs with
  | some l => some (l + rhs)
  | none => some rhs

/-- Mirror of `std::cmp::max` on `Option<&Qty>` (used at src/src/lib.rs:59):
`None` compares below `Some`, two present values compare by `Qty` order. -/
def optionMax (a b : Option Qty) : Option Qty :=
  match a, b with
  | none, b => b
  | some x, none => some x
  | some x, some y => some (max x y)

/-- Mirror of `QtyByQualifier::calc_free` (src/src/lib.rs:58-70); the
`zip`-then-`map` of the source is rendered as a match on the two options. -/
def QtyByQualifier.calc_free (t : QtyByQualifier) : Option Qty :=
  match t.allocatable, optionMax t.limit t.requested with
  | some allocatable, some total_used =>
    some (if total_used < allocatable then allocatable - total_used else (0 : Qty))
  | _, _ => none

/-- Mirror of the fold body of `sum_by_qualifier` (src/src/lib.rs:82-94):
route the record's quantity into the bucket matching its qualifier. -/
def sumStep (acc : QtyByQualifier) (v : Resource) : QtyByQualifier :=
  match v.qualifier with
  | ResourceQualifier.Limit => { acc with limit := add acc.limit v.quantity }
  | ResourceQualifier.Requested => { acc with requested := add acc.requested v.quantity }
  | ResourceQualifier.Allocatable => { acc with allocatable := add acc.allocatable v.quantity }
  | ResourceQualifier.Utilization => { acc with utilization := add acc.utilization v.quantity }

/-- Mirror of `pub fn sum_by_qualifier` (src/src/lib.rs:73-102). -/
def sum_by_qualifier (rsrcs : List Resource) : Option QtyByQualifier :=
  match rsrcs with
  | [] => none
  | r0 :: _ =>
    let kind := r0.kind
    if rsrcs.all (fun i => i.kind == kind) then
      some (rsrcs.foldl sumStep QtyByQualifier.default)
    else
      none

/-- Keyed record list built at src/src/lib.rs:134-135:
`rsrcs.iter().filter_map(|e| group_by(e).map(|k| (k, *e)))`. -/
def keyed (rsrcs : List Resource) (group_by : Resource → Option String) :
    List (String × Resource) :=
  rsrcs.filterMap (fun e => (group_by e).map (fun k => (k, e)))

/-- Duplicate-free enumeration of the keys of `into_group_map()`
(src/src/lib.rs:136); the enumeration order is a modelling choice, see the
module comment. -/
def keysInOrder (kd : List (String × Resource)) : List String :=
  (kd.map Prod.fst).dedup

/-- Per-key group of `into_group_map()` (src/src/lib.rs:136): the records
whose key equals `key`, in input order. -/
def grpOf (key : String) (rsrcs : List Resource)
    (group_by : Resource → Option String) : List Resource :=
  ((keyed rsrcs group_by).filter (fun p => p.1 == key)).map Prod.snd

/-- Structural-recursion core of `make_group_x_qualifier`: the remaining
key-extraction functions are passed as a list (the source indexes the full
list with `group_by_depth`; the bridge is `make_group_x_qualifier_eq_aux`). -/
def mgxqAux : List (Resource → Option String) → List Resource → List String →
    List (List String × Option QtyByQualifier)
  | [], _, _ => []
  | group_by :: rest, rsrcs, pref =>
    (keysInOrder (keyed rsrcs group_by)).flatMap
      (fun key =>
        let group := grpOf key rsrcs group_by
        let key_full := pref ++ [key]
        (key_full, sum_by_qualifier group) :: mgxqAux rest group key_full)

/-- Mirror of `fn make_group_x_qualifier` (src/src/lib.rs:123-149): per key
group emit the node `(prefix ++ [key], sum_by_qualifier(group))` followed by
the recursively built children of that group at the next depth. -/
def make_group_x_qualifier (rsrcs : List Resource) (pref : List String)
    (group_by_fct : List (Resource → Option String)) (group_by_depth : Nat) :
    List (List String × Option QtyByQualifier) :=
  match hg : group_by_fct.get? group_by_depth with
  | none => []
  | some group_by =>
    (keysInOrder (keyed rsrcs group_by)).flatMap
      (fun key =>
        let group := grpOf key rsrcs group_by
        let key_full := pref ++ [key]
        (key_full, sum_by_qualifier group) ::
          make_group_x_qualifier group key_full group_by_fct (group_by_depth + 1))
termination_by group_by_fct.length - group_by_depth
decreasing_by
  have hlt : group_by_depth < group_by_fct.length := by
    cases List.get?_eq_some.mp hg with
    | intro h _ => exact h
  omega

/-- Decides whether the character list `l` starts with the character list
`p` (helper for the substring test of `String::contains`). -/
def listLeadsWith : List Char → List Char → Bool
  | [], _ => true
  | _ :: _, [] => false
  | p :: ps, c :: cs => p == c && listLeadsWith ps cs

/-- Decides whether `pat` occurs as a contiguous sublist of the second
argument (helper for `String::contains`). -/
def listContainsSub (pat : List Char) : List Char → Bool
  | [] => pat.isEmpty
  | c :: cs => listLeadsWith pat (c :: cs) || listContainsSub pat cs

/-- Mirror of Rust `name.contains(x)`: substring test on the characters. -/
def strContains (name x : String) : Bool :=
  listContainsSub x.toList name.toList

/-- Mirror of `fn accept_resource` (src/src/lib.rs:151-153). -/
def accept_resource (name : String) (resource_filter : List String) : Bool :=
  resource_filter.isEmpty || resource_filter.any (fun x => strContains name x)

/-- Mirror of enum `GroupBy` (src/src/lib.rs:430-439).  The variant
`namespace` is a Lean keyword and is rendered `nspace` here. -/
inductive GroupBy : Type where
  | resource : GroupBy
  | node : GroupBy
  | pod : GroupBy
  | nspace : GroupBy
deriving DecidableEq, Repr

/-- Mirror of `GroupBy::extract_kind` (src/src/lib.rs:451-453). -/
def GroupBy.extract_kind (e : Resource) : Option String :=
  some e.kind

/-- Mirror of `GroupBy::extract_node_name` (src/src/lib.rs:455-457). -/
def GroupBy.extract_node_name (e : Resource) : Option String :=
  e.location.node_name

/-- Mirror of `GroupBy::extract_pod_name` (src/src/lib.rs:459-465): the
`pods` resource kind is not displayed when grouping by pod. -/
def GroupBy.extract_pod_name (e : Resource) : Option String :=
  if e.kind == "pods" then none else e.location.pod_name

/-- Mirror of `GroupBy::extract_namespace` (src/src/lib.rs:467-469). -/
def GroupBy.extract_namespace (e : Resource) : Option String :=
  e.location.nspace

/-- Mirror of `GroupBy::to_fct` (src/src/lib.rs:442-449). -/
def GroupBy.to_fct : GroupBy → (Resource → Option String)
  | GroupBy.resource => GroupBy.extract_kind
  | GroupBy.node => GroupBy.extract_node_name
  | GroupBy.pod => GroupBy.extract_pod_name
  | GroupBy.nspace => GroupBy.extract_namespace

/-- Computable mirror of the `Ord` instance of `String` (comparison of the
character sequences; this matches the source up to the usual
byte-versus-scalar-value distinction, immaterial to the theorems). -/
def strLtB (a b : String) : Bool :=
  decide (a.toList < b.toList)

/-- Computable strict lexicographic comparison of key paths, mirroring the
`Ord` instance of `Vec<String>` used by `out.sort_by_key(|i| i.0.clone())`
(src/src/lib.rs:119): elementwise comparison, a strict prefix sorts first. -/
def pathLtB : List String → List String → Bool
  | [], [] => false
  | [], _ :: _ => true
  | _ :: _, [] => false
  | a :: as2, b :: bs =>
    if strLtB a b then true else if strLtB b a then false else pathLtB as2 bs

/-- Computable non-strict path comparison. -/
def pathLeB (p q : List String) : Bool :=
  pathLtB p q || p == q

/-- Non-strict comparison of forest nodes by their key path, used by the
sort of `make_qualifiers`. -/
def nodeLe (a b : List String × Option QtyByQualifier) : Prop :=
  pathLeB a.1 b.1 = true

instance : DecidableRel nodeLe :=
  fun _ _ => inferInstanceAs (Decidable (_ = true))

/-- Mirror of `fn make_qualifiers` (src/src/lib.rs:104-121): filter the
records by resource name, group them, and sort the nodes by key path. -/
def make_qualifiers (rsrcs : List Resource) (group_by : List GroupBy)
    (resource_names : List String) : List (List String × Option QtyByQualifier) :=
  let group_by_fct := group_by.map GroupBy.to_fct
  List.insertionSort nodeLe
    (make_group_x_qualifier
      (rsrcs.filter (fun a => accept_resource a.kind resource_names))
      [] group_by_fct 0)

/-! Modelled from the spec: the parse/format pipeline of §4.1 (the missing
`qty.rs` module).  A quantity is parsed from a numeric literal and a suffix
from a fixed table mapping suffix to scale family and factor; formatting
picks a display suffix inside the value's own scale family and renders the
exact mantissa for it. -/

/-- Modelled from the spec: scale family of a suffix — decimal powers of 10
(the empty suffix counts as decimal exponent zero), or binary powers of
1024. -/
inductive ScaleFamily : Type where
  | decimal : ScaleFamily
  | binary : ScaleFamily
deriving DecidableEq, Repr

/-- Modelled from the spec: the fixed suffix vocabulary — decimal suffixes
from nano through exa in SI steps plus the empty suffix, and binary suffixes
from 2 ^ 10 through 2 ^ 60 in 10-bit steps. -/
inductive Suffix : Type where
  | n : Suffix
  | u : Suffix
  | m : Suffix
  | empty : Suffix
  | k : Suffix
  | M : Suffix
  | G : Suffix
  | T : Suffix
  | P : Suffix
  | E : Suffix
  | Ki : Suffix
  | Mi : Suffix
  | Gi : Suffix
  | Ti : Suffix
  | Pi : Suffix
  | Ei : Suffix
deriving DecidableEq, Repr

/-- Modelled from the spec: the numeric factor a suffix scales its literal
by. -/
def Suffix.factor : Suffix → ℚ
  | Suffix.n => 1 / 1000000000
  | Suffix.u => 1 / 1000000
  | Suffix.m => 1 / 1000
  | Suffix.empty => 1
  | Suffix.k => 1000
  | Suffix.M => 1000000
  | Suffix.G => 1000000000
  | Suffix.T => 1000000000000
  | Suffix.P => 1000000000000000
  | Suffix.E => 1000000000000000000
  | Suffix.Ki => 1024
  | Suffix.Mi => 1048576
  | Suffix.Gi => 1073741824
  | Suffix.Ti => 1099511627776
  | Suffix.Pi => 1125899906842624
  | Suffix.Ei => 1152921504606846976

/-- Modelled from the spec: the scale family a suffix belongs to. -/
def Suffix.family : Suffix → ScaleFamily
  | Suffix.n => ScaleFamily.decimal
  | Suffix.u => ScaleFamily.decimal
  | Suffix.m => ScaleFamily.decimal
  | Suffix.empty => ScaleFamily.decimal
  | Suffix.k => ScaleFamily.decimal
  | Suffix.M => ScaleFamily.decimal
  | Suffix.G => ScaleFamily.decimal
  | Suffix.T => ScaleFamily.decimal
  | Suffix.P => ScaleFamily.decimal
  | Suffix.E => ScaleFamily.decimal
  | Suffix.Ki => ScaleFamily.binary
  | Suffix.Mi => ScaleFamily.binary
  | Suffix.Gi => ScaleFamily.binary
  | Suffix.Ti => ScaleFamily.binary
  | Suffix.Pi => ScaleFamily.binary
  | Suffix.Ei => ScaleFamily.binary

/-- Modelled from the spec: the suffixes of a scale family, in ascending
factor order (candidate display scales). -/
def ScaleFamily.suffixes : ScaleFamily → List Suffix
  | ScaleFamily.decimal =>
    [Suffix.n, Suffix.u, Suffix.m, Suffix.empty, Suffix.k, Suffix.M, Suffix.G,
      Suffix.T, Suffix.P, Suffix.E]
  | ScaleFamily.binary =>
    [Suffix.Ki, Suffix.Mi, Suffix.Gi, Suffix.Ti, Suffix.Pi, Suffix.Ei]

/-- Modelled from the spec: a numeric literal — an integer part and a list
of fraction digits (well-formed when every digit is below ten). -/
structure NumLit where
  intPart : Nat
  fracDigits : List Nat
deriving DecidableEq, Repr

/-- Numeric value denoted by a literal. -/
def NumLit.value (lit : NumLit) : ℚ :=
  (lit.intPart : ℚ) + lit.fracDigits.foldr (fun d acc => ((d : ℚ) + acc) / 10) 0

/-- Modelled from the spec: a parsed quantity — the exact numeric value
together with the scale family the text expressed it in. -/
structure QtyM where
  value : ℚ
  family : ScaleFamily
deriving DecidableEq, Repr

/-- Modelled from the spec: parsing a literal-plus-suffix text; fails when a
fraction digit is malformed, otherwise scales the literal by the suffix
factor and remembers the scale family. -/
def parseQty (lit : NumLit) (suf : Suffix) : Option QtyM :=
  if lit.fracDigits.all (fun d => d < 10) then
    some ⟨lit.value * suf.factor, suf.family⟩
  else
    none

/-- Modelled from the spec: pick the display suffix — the largest candidate
of the family whose factor does not exceed the value (keeping the mantissa
small), defaulting to the family's smallest suffix. -/
def chooseSuffix (v : ℚ) : List Suffix → Suffix → Suffix
  | [], best => best
  | s :: rest, best =>
    if s.factor ≤ v then chooseSuffix v rest s else chooseSuffix v rest best

/-- Modelled from the spec: format a quantity — choose a display suffix in
the quantity's own scale family and render the exact mantissa for it.  The
formatted text is modelled as the mantissa/suffix pair it displays. -/
def formatQty (q : QtyM) : ℚ × Suffix :=
  let cands := q.family.suffixes
  let s := chooseSuffix q.value cands (cands.headD Suffix.empty)
  (q.value / s.factor, s)

/-- Numeric value denoted by a formatted mantissa/suffix text. -/
def textValue (t : ℚ × Suffix) : ℚ :=
  t.1 * t.2.factor

/-! Helper definitions used by the theorems. -/

/-- Projection of the bucket matching a qualifier. -/
def bucketGet (q : ResourceQualifier) (t : QtyByQualifier) : Option Qty :=
  match q with
  | ResourceQualifier.Limit => t.limit
  | ResourceQualifier.Requested => t.requested
  | ResourceQualifier.Allocatable => t.allocatable
  | ResourceQualifier.Utilization => t.utilization

/-- Quantities of the records carrying a given qualifier, in list order. -/
def quantList (q : ResourceQualifier) (rs : List Resource) : List Qty :=
  (rs.filter (fun r => r.qualifier == q)).map Resource.quantity

/-- Accumulation with the source's `add`, starting from the absent bucket. -/
def optAccum (l : List Qty) : Option Qty :=
  l.foldl add none

/-- Accumulation with the source's `add` over optional summands, skipping
the absent ones. -/
def optJoin (l : List (Option Qty)) : Option Qty :=
  l.foldl (fun acc o => match o with | none => acc | some v => add acc v) none

/-- Path `q` properly extends path `p` (that is, `q` is a strict descendant
position of `p` in the forest). -/
def properExt (p q : List String) : Prop :=
  ∃ s, s ≠ [] ∧ q = p ++ s

/-! Concrete records used by the witnesses and counterexamples. -/

/-- Concrete record: a cpu limit. -/
def rMixA : Resource := ⟨"cpu", 1, ⟨none, none, none⟩, ResourceQualifier.Limit⟩

/-- Concrete record: a memory limit (kind differs from `rMixA`). -/
def rMixB : Resource := ⟨"memory", 1, ⟨none, none, none⟩, ResourceQualifier.Limit⟩

/-- Concrete record: one cpu allocatable quantity on node n1. -/
def wRec1 : Resource := ⟨"cpu", 1, ⟨some "n1", none, none⟩, ResourceQualifier.Allocatable⟩

/-- Concrete record: a cpu limit of 3. -/
def wC5a : Resource := ⟨"cpu", 3, ⟨none, none, none⟩, ResourceQualifier.Limit⟩

/-- Concrete record: a cpu request of 5. -/
def wC5b : Resource := ⟨"cpu", 5, ⟨none, none, none⟩, ResourceQualifier.Requested⟩

/-- Concrete record: a cpu request on node n1. -/
def wC6a : Resource := ⟨"cpu", 2, ⟨some "n1", none, none⟩, ResourceQualifier.Requested⟩

/-- Concrete record: a cpu limit on node n2. -/
def wC6b : Resource := ⟨"cpu", 3, ⟨some "n2", none, none⟩, ResourceQualifier.Limit⟩

/-- Concrete record: cpu allocatable on node n1. -/
def wCpu : Resource := ⟨"cpu", 4, ⟨some "n1", none, none⟩, ResourceQualifier.Allocatable⟩

/-- Concrete record: memory allocatable on node n1. -/
def wMem : Resource := ⟨"memory", 8, ⟨some "n1", none, none⟩, ResourceQualifier.Allocatable⟩

/-- Concrete record: a synthetic pods-count record on pod p1. -/
def wPods : Resource := ⟨"pods", 1, ⟨some "n1", none, some "p1"⟩, ResourceQualifier.Requested⟩

/-! Lemmas about the accumulators. -/

theorem foldl_add_some (l : List Qty) : ∀ a : Qty, l.foldl add (some a) = some (a + l.sum) := by
  induction l with
  | nil => intro a; simp [add]
  | cons x xs ih =>
    intro a
    simp only [List.foldl_cons, add, List.sum_cons, ih (a + x), add_assoc]

theorem optAccum_nil : optAccum [] = none := rfl

theorem optAccum_cons (x : Qty) (xs : List Qty) : optAccum (x :: xs) = some (x + xs.sum) := by
  simp only [optAccum, List.foldl_cons, add, foldl_add_some]

theorem optAccum_eq_none_iff (l : List Qty) : optAccum l = none ↔ l = [] := by
  cases l with
  | nil => simp [optAccum_nil]
  | cons x xs => simp [optAccum_cons]

theorem optAccum_perm {l₁ l₂ : List Qty} (h : l₁.Perm l₂) : optAccum l₁ = optAccum l₂ := by
  cases l₁ with
  | nil => rw [List.Perm.eq_nil h.symm]
  | cons x xs =>
    cases l₂ with
    | nil => exact absurd (List.Perm.eq_nil h) (by simp)
    | cons y ys =>
      rw [optAccum_cons, optAccum_cons, ← List.sum_cons, ← List.sum_cons, h.sum_eq]

theorem optAccum_ne_nil (l : List Qty) (h : l ≠ []) : optAccum l = some l.sum := by
  cases l with
  | nil => exact absurd rfl h
  | cons x xs => rw [optAccum_cons, List.sum_cons]

/-! Characterization of `sum_by_qualifier` through its buckets. -/

theorem bucketGet_default (q : ResourceQualifier) : bucketGet q QtyByQualifier.default = none := by
  cases q <;> rfl

theorem bucketGet_sumStep (q : ResourceQualifier) (acc : QtyByQualifier) (v : Resource) :
    bucketGet q (sumStep acc v) =
      if v.qualifier = q then add (bucketGet q acc) v.quantity else bucketGet q acc := by
  cases hq : v.qualifier <;> cases q <;> simp [sumStep, bucketGet, hq]

theorem bucketGet_foldl (q : ResourceQualifier) :
    ∀ (rs : List Resource) (acc : QtyByQualifier),
      bucketGet q (rs.foldl sumStep acc) = (quantList q rs).foldl add (bucketGet q acc) := by
  intro rs
  induction rs with
  | nil => intro acc; simp [quantList]
  | cons r rest ih =>
    intro acc
    by_cases h : r.qualifier = q
    · simp [List.foldl_cons, ih, bucketGet_sumStep, h, quantList, List.filter_cons]
    · simp [List.foldl_cons, ih, bucketGet_sumStep, h, quantList, List.filter_cons]

theorem qbq_ext (t₁ t₂ : QtyByQualifier)
    (h : ∀ q, bucketGet q t₁ = bucketGet q t₂) : t₁ = t₂ := by
  cases t₁ with
  | mk l₁ r₁ a₁ u₁ =>
    cases t₂ with
    | mk l₂ r₂ a₂ u₂ =>
      have hl := h ResourceQualifier.Limit
      have hr := h ResourceQualifier.Requested
      have ha := h ResourceQualifier.Allocatable
      have hu := h ResourceQualifier.Utilization
      simp only [bucketGet] at hl hr ha hu
      simp [hl, hr, ha, hu]

theorem all_kind_iff (r0 : Resource) (rest : List Resource) :
    ((r0 :: rest).all (fun i => i.kind == r0.kind) = true) ↔
      ∃ k, ∀ r ∈ r0 :: rest, r.kind = k := by
  constructor
  · intro h
    refine ⟨r0.kind, ?_⟩
    intro r hr
    have := List.all_eq_true.mp h r hr
    exact beq_iff_eq.mp this
  · intro h
    obtain ⟨k, hk⟩ := h
    apply List.all_eq_true.mpr
    intro r hr
    have h0 : r0.kind = k := hk r0 (List.mem_cons_self r0 rest)
    have hrk : r.kind = k := hk r hr
    exact beq_iff_eq.mpr (hrk.trans h0.symm)

theorem sum_by_qualifier_eq (rs : List Resource) (hne : rs ≠ [])
    (hk : ∃ k, ∀ r ∈ rs, r.kind = k) :
    sum_by_qualifier rs =
      some ⟨optAccum (quantList ResourceQualifier.Limit rs),
            optAccum (quantList ResourceQualifier.Requested rs),
            optAccum (quantList ResourceQualifier.Allocatable rs),
            optAccum (quantList ResourceQualifier.Utilization rs)⟩ := by
  cases rs with
  | nil => exact absurd rfl hne
  | cons r0 rest =>
    have hall : (r0 :: rest).all (fun i => i.kind == r0.kind) = true :=
      (all_kind_iff r0 rest).mpr hk
    simp only [sum_by_qualifier, hall, if_pos]
    congr 1
    apply qbq_ext
    intro q
    rw [bucketGet_foldl, bucketGet_default]
    cases q <;> rfl

theorem sum_by_qualifier_isSome_iff (rs : List Resource) :
    (sum_by_qualifier rs).isSome = true ↔ rs ≠ [] ∧ ∃ k, ∀ r ∈ rs, r.kind = k := by
  cases rs with
  | nil => simp [sum_by_qualifier]
  | cons r0 rest =>
    constructor
    · intro h
      refine ⟨by simp, ?_⟩
      by_contra hx
      have : ¬ ((r0 :: rest).all (fun i => i.kind == r0.kind) = true) := by
        intro hall
        exact hx ((all_kind_iff r0 rest).mp hall)
      simp only [sum_by_qualifier, if_neg this] at h
      exact Bool.noConfusion h
    · intro h
      have hall := (all_kind_iff r0 rest).mpr h.2
      simp [sum_by_qualifier, hall]

theorem sum_by_qualifier_perm {g₁ g₂ : List Resource} (h : g₁.Perm g₂) :
    sum_by_qualifier g₁ = sum_by_qualifier g₂ := by
  cases g₁ with
  | nil => rw [List.Perm.eq_nil h.symm]
  | cons x xs =>
    cases g₂ with
    | nil => exact absurd (List.Perm.eq_nil h) (by simp)
    | cons y ys =>
      by_cases hk : ∃ k, ∀ r ∈ x :: xs, r.kind = k
      · have hk₂ : ∃ k, ∀ r ∈ y :: ys, r.kind = k := by
          obtain ⟨k, hkk⟩ := hk
          exact ⟨k, fun r hr => hkk r (h.symm.subset hr)⟩
        rw [sum_by_qualifier_eq _ (by simp) hk, sum_by_qualifier_eq _ (by simp) hk₂]
        have hb : ∀ q : ResourceQualifier,
            optAccum (quantList q (x :: xs)) = optAccum (quantList q (y :: ys)) := by
          intro q
          simp only [quantList]
          exact optAccum_perm ((h.filter (fun r => r.qualifier == q)).map Resource.quantity)
        simp [hb ResourceQualifier.Limit, hb ResourceQualifier.Requested,
          hb ResourceQualifier.Allocatable, hb ResourceQualifier.Utilization]
      · have hk₂ : ¬ ∃ k, ∀ r ∈ y :: ys, r.kind = k := by
          intro hx
          obtain ⟨k, hkk⟩ := hx
          exact hk ⟨k, fun r hr => hkk r (h.subset hr)⟩
        have h₁ : sum_by_qualifier (x :: xs) = none := by
          cases hv : sum_by_qualifier (x :: xs) with
          | none => rfl
          | some t =>
            have : (sum_by_qualifier (x :: xs)).isSome = true := by rw [hv]; rfl
            exact absurd ((sum_by_qualifier_isSome_iff _).mp this).2 hk
        have h₂ : sum_by_qualifier (y :: ys) = none := by
          cases hv : sum_by_qualifier (y :: ys) with
          | none => rfl
          | some t =>
            have : (sum_by_qualifier (y :: ys)).isSome = true := by rw [hv]; rfl
            exact absurd ((sum_by_qualifier_isSome_iff _).mp this).2 hk₂
        rw [h₁, h₂]

/-! Lemmas about the grouping combinators. -/

theorem mem_keyed {rsrcs : List Resource} {f : Resource → Option String}
    {k : String} {e : Resource} :
    (k, e) ∈ keyed rsrcs f ↔ e ∈ rsrcs ∧ f e = some k := by
  simp only [keyed, List.mem_filterMap, Option.map_eq_some']
  constructor
  · rintro ⟨a, ha, b, hb, hba⟩
    cases hba
    exact ⟨ha, hb⟩
  · rintro ⟨he, hf⟩
    exact ⟨e, he, k, hf, rfl⟩

theorem mem_keyed_fst {rsrcs : List Resource} {f : Resource → Option String}
    {p : String × Resource} (h : p ∈ keyed rsrcs f) :
    p.2 ∈ rsrcs ∧ f p.2 = some p.1 := by
  cases p with
  | mk k e => exact mem_keyed.mp h

theorem mem_grpOf {k : String} {rsrcs : List Resource} {f : Resource → Option String}
    {r : Resource} :
    r ∈ grpOf k rsrcs f ↔ r ∈ rsrcs ∧ f r = some k := by
  simp only [grpOf, List.mem_map, List.mem_filter, beq_iff_eq]
  constructor
  · rintro ⟨p, ⟨hp, hk⟩, hr⟩
    have := mem_keyed_fst hp
    rw [hr] at this
    exact ⟨this.1, by rw [← hk]; exact this.2⟩
  · rintro ⟨hr, hf⟩
    exact ⟨(k, r), ⟨mem_keyed.mpr ⟨hr, hf⟩, rfl⟩, rfl⟩

theorem nodup_keysInOrder (kd : List (String × Resource)) : (keysInOrder kd).Nodup :=
  List.nodup_dedup _

theorem mem_keysInOrder {kd : List (String × Resource)} {k : String} :
    k ∈ keysInOrder kd ↔ ∃ p ∈ kd, p.1 = k := by
  simp [keysInOrder, List.mem_dedup, List.mem_map]

theorem grpOf_ne_nil {k : String} {rsrcs : List Resource} {f : Resource → Option String}
    (h : k ∈ keysInOrder (keyed rsrcs f)) : grpOf k rsrcs f ≠ [] := by
  obtain ⟨p, hp, hk⟩ := mem_keysInOrder.mp h
  have h2 := mem_keyed_fst hp
  intro hnil
  have : p.2 ∈ grpOf k rsrcs f := mem_grpOf.mpr ⟨h2.1, by rw [h2.2, hk]⟩
  rw [hnil] at this
  exact List.not_mem_nil p.2 this

theorem partitionPairsPerm :
    ∀ (ks : List String) (l : List (String × Resource)), ks.Nodup →
      (∀ p ∈ l, p.1 ∈ ks) →
      (ks.flatMap (fun k => l.filter (fun p => p.1 == k))).Perm l := by
  intro ks
  induction ks with
  | nil =>
    intro l _ hcov
    cases l with
    | nil => simp
    | cons p rest => exact absurd (hcov p (List.mem_cons_self p rest)) (List.not_mem_nil p.1)
  | cons k ks ih =>
    intro l hnd hcov
    have hnd2 := List.nodup_cons.mp hnd
    rw [List.flatMap_cons]
    have hstep : ∀ k2 ∈ ks,
        l.filter (fun p => p.1 == k2) =
          (l.filter (fun p => !(p.1 == k))).filter (fun p => p.1 == k2) := by
      intro k2 hk2
      have hkne : ¬ k2 = k := fun hh => hnd2.1 (hh ▸ hk2)
      rw [List.filter_filter]
      apply List.filter_congr
      intro p _
      by_cases h1 : p.1 = k2
      · simp [h1, hkne]
      · simp [h1]
    have hflat : (ks.flatMap (fun k2 => l.filter (fun p => p.1 == k2))).Perm
        (ks.flatMap (fun k2 => (l.filter (fun p => !(p.1 == k))).filter (fun p => p.1 == k2))) := by
      apply List.Perm.flatMap_left
      intro k2 hk2
      rw [hstep k2 hk2]
    have hih : (ks.flatMap (fun k2 =>
        (l.filter (fun p => !(p.1 == k))).filter (fun p => p.1 == k2))).Perm
        (l.filter (fun p => !(p.1 == k))) := by
      apply ih _ hnd2.2
      intro p hp
      have hmem := List.mem_filter.mp hp
      have hcv := hcov p hmem.1
      cases List.mem_cons.mp hcv with
      | inl heq => rw [heq] at hmem; simp at hmem
      | inr hin => exact hin
    have hA : (l.filter (fun p => p.1 == k) ++
        ks.flatMap (fun k2 => l.filter (fun p => p.1 == k2))).Perm
        (l.filter (fun p => p.1 == k) ++ l.filter (fun p => !(p.1 == k))) :=
      List.Perm.append_left _ (hflat.trans hih)
    exact hA.trans (List.filter_append_perm _ l)

theorem keyed_snd (f : Resource → Option String) :
    ∀ rsrcs : List Resource, (∀ r ∈ rsrcs, (f r).isSome = true) →
      (keyed rsrcs f).map Prod.snd = rsrcs := by
  intro rsrcs
  induction rsrcs with
  | nil => intro _; rfl
  | cons r rest ih =>
    intro hall
    have hr := hall r (List.mem_cons_self r rest)
    obtain ⟨k, hk⟩ := Option.isSome_iff_exists.mp hr
    have hrest : ∀ x ∈ rest, (f x).isSome = true := fun x hx =>
      hall x (List.mem_cons_of_mem r hx)
    have hcons : keyed (r :: rest) f = (k, r) :: keyed rest f := by
      simp [keyed, List.filterMap_cons, hk]
    rw [hcons, List.map_cons, ih hrest]

theorem grp_flatMap_perm (rsrcs : List Resource) (f : Resource → Option String)
    (hall : ∀ r ∈ rsrcs, (f r).isSome = true) :
    ((keysInOrder (keyed rsrcs f)).flatMap (fun k => grpOf k rsrcs f)).Perm rsrcs := by
  have hperm : ((keysInOrder (keyed rsrcs f)).flatMap
      (fun k => (keyed rsrcs f).filter (fun p => p.1 == k))).Perm (keyed rsrcs f) := by
    apply partitionPairsPerm _ _ (nodup_keysInOrder _)
    intro p hp
    exact mem_keysInOrder.mpr ⟨p, hp, rfl⟩
  have hmap := hperm.map Prod.snd
  rw [List.map_flatMap] at hmap
  rw [keyed_snd f rsrcs hall] at hmap
  simpa only [grpOf] using hmap

/-! Bridge between the depth-indexed recursion of the source and its
structural core, and structural lemmas about the latter. -/

theorem mgxq_none {fcts : List (Resource → Option String)} {d : Nat}
    (hg : fcts.get? d = none) (rsrcs : List Resource) (pref : List String) :
    make_group_x_qualifier rsrcs pref fcts d = [] := by
  rw [make_group_x_qualifier]
  split
  · rfl
  · rename_i f heq
    rw [hg] at heq
    exact Option.noConfusion heq

theorem mgxq_some {fcts : List (Resource → Option String)} {d : Nat}
    {f : Resource → Option String} (hg : fcts.get? d = some f)
    (rsrcs : List Resource) (pref : List String) :
    make_group_x_qualifier rsrcs pref fcts d =
      (keysInOrder (keyed rsrcs f)).flatMap
        (fun key =>
          (pref ++ [key], sum_by_qualifier (grpOf key rsrcs f)) ::
            make_group_x_qualifier (grpOf key rsrcs f) (pref ++ [key]) fcts (d + 1)) := by
  rw [make_group_x_qualifier]
  split
  · rename_i heq
    rw [hg] at heq
    exact Option.noConfusion heq
  · rename_i f2 heq
    rw [hg] at heq
    injection heq with heq
    subst heq
    rfl

theorem mgxq_eq_aux (fcts : List (Resource → Option String)) :
    ∀ (k d : Nat) (rsrcs : List Resource) (pref : List String),
      fcts.length - d ≤ k →
      make_group_x_qualifier rsrcs pref fcts d = mgxqAux (fcts.drop d) rsrcs pref := by
  intro k
  induction k with
  | zero =>
    intro d rsrcs pref hle
    have hd : fcts.length ≤ d := by omega
    rw [mgxq_none (List.get?_eq_none.mpr hd), List.drop_eq_nil_of_le hd]
    rfl
  | succ k ih =>
    intro d rsrcs pref hle
    cases hg : fcts.get? d with
    | none =>
      have hd : fcts.length ≤ d := List.get?_eq_none.mp hg
      rw [mgxq_none hg, List.drop_eq_nil_of_le hd]
      rfl
    | some f =>
      obtain ⟨hd, hget⟩ := List.get?_eq_some.mp hg
      have hfd : fcts[d] = f := by
        rw [← hget]
        rfl
      have hdrop : fcts.drop d = f :: fcts.drop (d + 1) := by
        rw [List.drop_eq_getElem_cons hd, hfd]
      rw [mgxq_some hg, hdrop]
      show _ = List.flatMap _ _
      simp only [mgxqAux]
      apply congrArg
      funext key
      apply congrArg
      exact ih (d + 1) (grpOf key rsrcs f) (pref ++ [key]) (by omega)

theorem mgxq_eq (rsrcs : List Resource) (pref : List String)
    (fcts : List (Resource → Option String)) (d : Nat) :
    make_group_x_qualifier rsrcs pref fcts d = mgxqAux (fcts.drop d) rsrcs pref :=
  mgxq_eq_aux fcts (fcts.length - d) d rsrcs pref (Nat.le_refl _)

theorem mgxq_zero (rsrcs : List Resource) (pref : List String)
    (fcts : List (Resource → Option String)) :
    make_group_x_qualifier rsrcs pref fcts 0 = mgxqAux fcts rsrcs pref := by
  rw [mgxq_eq, List.drop_zero]

theorem mgxqAux_extends :
    ∀ (fcts : List (Resource → Option String)) (g : List Resource)
      (pref : List String) (node : List String × Option QtyByQualifier),
      node ∈ mgxqAux fcts g pref → ∃ s, s ≠ [] ∧ node.1 = pref ++ s := by
  intro fcts
  induction fcts with
  | nil =>
    intro g pref node h
    simp [mgxqAux] at h
  | cons f rest ih =>
    intro g pref node h
    simp only [mgxqAux, List.mem_flatMap] at h
    obtain ⟨key, _hkey, hmem⟩ := h
    cases List.mem_cons.mp hmem with
    | inl heq =>
      refine ⟨[key], by simp, ?_⟩
      rw [heq]
    | inr hin =>
      obtain ⟨s, hs, hn⟩ := ih _ _ _ hin
      refine ⟨key :: s, by simp, ?_⟩
      rw [hn, List.append_assoc]
      rfl

theorem chunk_fst_shape {f : Resource → Option String}
    {rest : List (Resource → Option String)} {g : List Resource}
    {pref : List String} {key : String} {t : Option QtyByQualifier}
    {node : List String × Option QtyByQualifier}
    (h : node ∈ (pref ++ [key], t) :: mgxqAux rest (grpOf key g f) (pref ++ [key])) :
    ∃ s, node.1 = pref ++ key :: s := by
  cases List.mem_cons.mp h with
  | inl heq =>
    refine ⟨[], ?_⟩
    rw [heq]
  | inr hin =>
    obtain ⟨s, _hs, hn⟩ := mgxqAux_extends _ _ _ _ hin
    refine ⟨s, ?_⟩
    rw [hn, List.append_assoc]
    rfl

theorem mgxqAux_nodup_fst :
    ∀ (fcts : List (Resource → Option String)) (g : List Resource) (pref : List String),
      ((mgxqAux fcts g pref).map Prod.fst).Nodup := by
  intro fcts
  induction fcts with
  | nil =>
    intro g pref
    simp [mgxqAux]
  | cons f rest ih =>
    intro g pref
    simp only [mgxqAux]
    have hkeys := nodup_keysInOrder (keyed g f)
    revert hkeys
    generalize keysInOrder (keyed g f) = ks
    intro hkeys
    induction ks with
    | nil => simp
    | cons key more ihk =>
      have hnd2 := List.nodup_cons.mp hkeys
      rw [List.flatMap_cons, List.map_append, List.nodup_append]
      refine ⟨?_, ihk hnd2.2, ?_⟩
      · rw [List.map_cons, List.nodup_cons]
        refine ⟨?_, ih _ _⟩
        intro hmem
        obtain ⟨node, hnode, hfst⟩ := List.mem_map.mp hmem
        obtain ⟨s, hs, hn⟩ := mgxqAux_extends _ _ _ _ hnode
        rw [hfst] at hn
        have h0 : (pref ++ [key]) ++ ([] : List String) = (pref ++ [key]) ++ s := by
          rw [List.append_nil]
          exact hn
        exact hs (List.append_cancel_left h0).symm
      · intro p hp hq
        obtain ⟨n1, hn1, hf1⟩ := List.mem_map.mp hp
        obtain ⟨s1, hs1⟩ := chunk_fst_shape hn1
        obtain ⟨n2, hn2, hf2⟩ := List.mem_map.mp hq
        obtain ⟨key2, hkey2, hmem2⟩ := List.mem_flatMap.mp hn2
        obtain ⟨s2, hs2⟩ := chunk_fst_shape hmem2
        have : pref ++ key :: s1 = pref ++ key2 :: s2 := by
          rw [← hs1, ← hs2, hf1, hf2]
        have hcons := List.append_cancel_left this
        have hkeq : key = key2 := by
          injection hcons with h1 _
        exact hnd2.1 (hkeq ▸ hkey2)

theorem mgxqAux_parent :
    ∀ (fcts : List (Resource → Option String)) (g : List Resource)
      (pref : List String) (node : List String × Option QtyByQualifier),
      node ∈ mgxqAux fcts g pref → pref.length + 2 ≤ node.1.length →
      ∃ t, (node.1.dropLast, t) ∈ mgxqAux fcts g pref := by
  intro fcts
  induction fcts with
  | nil =>
    intro g pref node h
    simp [mgxqAux] at h
  | cons f rest ih =>
    intro g pref node h hlen
    simp only [mgxqAux, List.mem_flatMap] at h
    obtain ⟨key, hkey, hmem⟩ := h
    cases List.mem_cons.mp hmem with
    | inl heq =>
      exfalso
      rw [heq] at hlen
      simp at hlen
    | inr hin =>
      by_cases h2 : (pref ++ [key]).length + 2 ≤ node.1.length
      · obtain ⟨t, ht⟩ := ih _ _ _ hin h2
        refine ⟨t, ?_⟩
        simp only [mgxqAux, List.mem_flatMap]
        exact ⟨key, hkey, List.mem_cons_of_mem _ ht⟩
      · obtain ⟨s, hs, hn⟩ := mgxqAux_extends rest _ _ _ hin
        cases s with
        | nil => exact absurd rfl hs
        | cons x xs =>
          cases xs with
          | nil =>
            refine ⟨sum_by_qualifier (grpOf key g f), ?_⟩
            have hdl : node.1.dropLast = pref ++ [key] := by
              rw [hn]
              exact List.dropLast_concat
            rw [hdl]
            simp only [mgxqAux, List.mem_flatMap]
            exact ⟨key, hkey, List.mem_cons_self _ _⟩
          | cons y ys =>
            exfalso
            apply h2
            rw [hn]
            simp
            omega

theorem mgxqAux_group :
    ∀ (fcts : List (Resource → Option String)) (g : List Resource)
      (pref : List String) (node : List String × Option QtyByQualifier),
      node ∈ mgxqAux fcts g pref →
      ∃ grp, grp ≠ [] ∧ (∀ r ∈ grp, r ∈ g) ∧ node.2 = sum_by_qualifier grp := by
  intro fcts
  induction fcts with
  | nil =>
    intro g pref node h
    simp [mgxqAux] at h
  | cons f rest ih =>
    intro g pref node h
    simp only [mgxqAux, List.mem_flatMap] at h
    obtain ⟨key, hkey, hmem⟩ := h
    cases List.mem_cons.mp hmem with
    | inl heq =>
      refine ⟨grpOf key g f, grpOf_ne_nil hkey, ?_, ?_⟩
      · intro r hr
        exact (mem_grpOf.mp hr).1
      · rw [heq]
    | inr hin =>
      obtain ⟨grp, hne, hsub, hval⟩ := ih _ _ _ hin
      refine ⟨grp, hne, ?_, hval⟩
      intro r hr
      exact (mem_grpOf.mp (hsub r hr)).1

theorem mgxqAux_uniform :
    ∀ (fcts : List (Resource → Option String)) (g : List Resource) (pref : List String),
      (∃ k, ∀ r ∈ g, r.kind = k) →
      ∀ node ∈ mgxqAux fcts g pref, node.2.isSome = true := by
  intro fcts
  induction fcts with
  | nil =>
    intro g pref _ node h
    simp [mgxqAux] at h
  | cons f rest ih =>
    intro g pref hk node h
    obtain ⟨k, hkind⟩ := hk
    simp only [mgxqAux, List.mem_flatMap] at h
    obtain ⟨key, hkey, hmem⟩ := h
    have huni : ∃ k2, ∀ r ∈ grpOf key g f, r.kind = k2 :=
      ⟨k, fun r hr => hkind r (mem_grpOf.mp hr).1⟩
    cases List.mem_cons.mp hmem with
    | inl heq =>
      rw [heq]
      exact (sum_by_qualifier_isSome_iff _).mpr ⟨grpOf_ne_nil hkey, huni⟩
    | inr hin =>
      exact ih _ _ huni node hin

theorem mgxqAux_perm :
    ∀ (fcts : List (Resource → Option String)) (g₁ g₂ : List Resource) (pref : List String),
      g₁.Perm g₂ → (mgxqAux fcts g₁ pref).Perm (mgxqAux fcts g₂ pref) := by
  intro fcts
  induction fcts with
  | nil =>
    intro g₁ g₂ pref _
    simp [mgxqAux]
  | cons f rest ih =>
    intro g₁ g₂ pref h
    simp only [mgxqAux]
    have hkeyed : (keyed g₁ f).Perm (keyed g₂ f) :=
      h.filterMap (fun e => (f e).map (fun k => (k, e)))
    have hkeys : (keysInOrder (keyed g₁ f)).Perm (keysInOrder (keyed g₂ f)) :=
      (hkeyed.map Prod.fst).dedup
    have hgrp : ∀ key, (grpOf key g₁ f).Perm (grpOf key g₂ f) := by
      intro key
      simp only [grpOf]
      exact (hkeyed.filter (fun p => p.1 == key)).map Prod.snd
    have h1 : ((keysInOrder (keyed g₁ f)).flatMap
        (fun key => (pref ++ [key], sum_by_qualifier (grpOf key g₁ f)) ::
          mgxqAux rest (grpOf key g₁ f) (pref ++ [key]))).Perm
        ((keysInOrder (keyed g₁ f)).flatMap
        (fun key => (pref ++ [key], sum_by_qualifier (grpOf key g₂ f)) ::
          mgxqAux rest (grpOf key g₂ f) (pref ++ [key]))) := by
      apply List.Perm.flatMap_left
      intro key _
      rw [sum_by_qualifier_perm (hgrp key)]
      exact (ih _ _ _ (hgrp key)).cons _
    have h2 := hkeys.flatMap_right
      (fun key => (pref ++ [key], sum_by_qualifier (grpOf key g₂ f)) ::
        mgxqAux rest (grpOf key g₂ f) (pref ++ [key]))
    exact h1.trans h2

/-! Order lemmas on key paths and on the sorted forest. -/

theorem lt_append_cons : ∀ (p : List String) (x : String) (s : List String),
    p < p ++ x :: s := by
  intro p
  induction p with
  | nil =>
    intro x s
    exact List.Lex.nil
  | cons a as2 ih =>
    intro x s
    exact List.Lex.cons (ih x s)

theorem lt_of_properExt {p q : List String} (h : properExt p q) : p < q := by
  obtain ⟨s, hs, hq⟩ := h
  cases s with
  | nil => exact absurd rfl hs
  | cons x s2 =>
    rw [hq]
    exact lt_append_cons p x s2

theorem lex_sandwich : ∀ (p q s : List String), s ≠ [] →
    List.Lex (· < ·) p q → List.Lex (· < ·) q (p ++ s) → properExt p q := by
  intro p
  induction p with
  | nil =>
    intro q s _ h1 _
    cases q with
    | nil => cases h1
    | cons b bs => exact ⟨b :: bs, by simp, rfl⟩
  | cons a as2 ih =>
    intro q s hs h1 h2
    cases q with
    | nil => cases h1
    | cons b bs =>
      cases h1 with
      | rel hab =>
        cases h2 with
        | rel hba => exact absurd hba (lt_asymm hab)
        | cons h2t => exact absurd hab (lt_irrefl a)
      | cons h1t =>
        cases h2 with
        | rel hba => exact absurd hba (lt_irrefl a)
        | cons h2t =>
          obtain ⟨s2, hs2, hq⟩ := ih bs s hs h1t h2t
          refine ⟨s2, hs2, ?_⟩
          rw [hq]
          rfl

theorem path_lt_sandwich {p q r : List String} (hpq : p < q) (hqr : q < r)
    (hpr : properExt p r) : properExt p q := by
  obtain ⟨s, hs, hr⟩ := hpr
  apply lex_sandwich p q s hs hpq
  rw [← hr]
  exact hqr

theorem strLtB_iff (a b : String) : strLtB a b = true ↔ a < b := by
  rw [String.lt_iff_toList_lt]
  exact decide_eq_true_iff

theorem strLtB_self (a : String) : strLtB a a = false := by
  rw [Bool.eq_false_iff]
  intro h
  exact lt_irrefl a (strLtB_iff a a |>.mp h)

theorem path_lt_iff (p q : List String) : p < q ↔ List.Lex (· < ·) p q :=
  Iff.rfl

theorem pathLtB_iff : ∀ p q : List String, pathLtB p q = true ↔ p < q := by
  intro p
  induction p with
  | nil =>
    intro q
    cases q with
    | nil =>
      rw [path_lt_iff]
      constructor
      · intro h
        exact absurd h (by simp [pathLtB])
      · intro h
        cases h
    | cons b bs =>
      rw [path_lt_iff]
      simp only [pathLtB]
      exact ⟨fun _ => List.Lex.nil, fun _ => trivial⟩
  | cons a as2 ih =>
    intro q
    cases q with
    | nil =>
      rw [path_lt_iff]
      constructor
      · intro h
        exact absurd h (by simp [pathLtB])
      · intro h
        cases h
    | cons b bs =>
      rw [path_lt_iff]
      constructor
      · intro h
        simp only [pathLtB] at h
        by_cases h1 : strLtB a b = true
        · exact List.Lex.rel (strLtB_iff a b |>.mp h1)
        · rw [if_neg h1] at h
          by_cases h2 : strLtB b a = true
          · rw [if_pos h2] at h
            exact Bool.noConfusion h
          · rw [if_neg h2] at h
            have hab : a = b := by
              have hna : ¬ a < b := fun hx => h1 (strLtB_iff a b |>.mpr hx)
              have hnb : ¬ b < a := fun hx => h2 (strLtB_iff b a |>.mpr hx)
              exact le_antisymm (not_lt.mp hnb) (not_lt.mp hna)
            subst hab
            exact List.Lex.cons ((ih bs).mp h)
      · intro h
        cases h with
        | rel hr =>
          simp only [pathLtB]
          rw [if_pos (strLtB_iff a b |>.mpr hr)]
        | cons ht =>
          simp only [pathLtB, strLtB_self, if_neg]
          exact (ih bs).mpr ht

theorem pathLeB_iff (p q : List String) : pathLeB p q = true ↔ p ≤ q := by
  rw [le_iff_lt_or_eq]
  simp [pathLeB, pathLtB_iff, Bool.or_eq_true]

theorem nodeLe_iff (a b : List String × Option QtyByQualifier) :
    nodeLe a b ↔ a.1 ≤ b.1 := by
  rw [nodeLe, pathLeB_iff]

instance : IsTotal (List String × Option QtyByQualifier) nodeLe :=
  ⟨fun a b => by
    rcases le_total a.1 b.1 with h | h
    · exact Or.inl ((nodeLe_iff a b).mpr h)
    · exact Or.inr ((nodeLe_iff b a).mpr h)⟩

instance : IsTrans (List String × Option QtyByQualifier) nodeLe :=
  ⟨fun a b c h1 h2 => (nodeLe_iff a c).mpr
    (le_trans ((nodeLe_iff a b).mp h1) ((nodeLe_iff b c).mp h2))⟩

theorem eq_of_perm_sorted_nodup :
    ∀ l₁ l₂ : List (List String × Option QtyByQualifier),
      l₁.Perm l₂ → List.Sorted nodeLe l₁ → List.Sorted nodeLe l₂ →
      (l₁.map Prod.fst).Nodup → l₁ = l₂ := by
  intro l₁
  induction l₁ with
  | nil =>
    intro l₂ h _ _ _
    exact (List.Perm.eq_nil h.symm).symm
  | cons a t₁ ih =>
    intro l₂ hp hs₁ hs₂ hn
    cases l₂ with
    | nil => exact absurd (List.Perm.eq_nil hp) (by simp)
    | cons b t₂ =>
      have hmem_a : a ∈ b :: t₂ := hp.subset (List.mem_cons_self a t₁)
      have hmem_b : b ∈ a :: t₁ := hp.symm.subset (List.mem_cons_self b t₂)
      have hs₁2 := List.sorted_cons.mp hs₁
      have hs₂2 := List.sorted_cons.mp hs₂
      rw [List.map_cons, List.nodup_cons] at hn
      have hab : b = a := by
        cases List.mem_cons.mp hmem_b with
        | inl h => exact h
        | inr hbt₁ =>
          have h1 : nodeLe a b := hs₁2.1 b hbt₁
          have h2 : nodeLe b a := by
            cases List.mem_cons.mp hmem_a with
            | inl h =>
              rw [h]
              exact (nodeLe_iff b b).mpr (le_refl _)
            | inr hat₂ => exact hs₂2.1 a hat₂
          have hfst : a.1 = b.1 :=
            le_antisymm ((nodeLe_iff a b).mp h1) ((nodeLe_iff b a).mp h2)
          exact absurd (hfst ▸ List.mem_map_of_mem Prod.fst hbt₁) hn.1
      subst hab
      have hpt : t₁.Perm t₂ := hp.cons_inv
      rw [ih t₂ hpt hs₁2.2 hs₂2.2 hn.2]

theorem sorted_strict {l : List (List String × Option QtyByQualifier)}
    (hs : List.Sorted nodeLe l) (hn : (l.map Prod.fst).Nodup) :
    l.Pairwise (fun a b => a.1 < b.1) := by
  have hne : l.Pairwise (fun a b => a.1 ≠ b.1) := List.pairwise_map.mp hn
  have hand := List.Pairwise.and hs hne
  exact hand.imp (fun h => lt_of_le_of_ne ((nodeLe_iff _ _).mp h.1) h.2)

theorem pairwise_get? {R : (List String × Option QtyByQualifier) →
    (List String × Option QtyByQualifier) → Prop}
    {l : List (List String × Option QtyByQualifier)}
    (h : l.Pairwise R) {i j : Nat} {a b : List String × Option QtyByQualifier}
    (hij : i < j) (ha : l.get? i = some a) (hb : l.get? j = some b) : R a b := by
  obtain ⟨hi, hia⟩ := List.get?_eq_some.mp ha
  obtain ⟨hj, hjb⟩ := List.get?_eq_some.mp hb
  have := List.pairwise_iff_get.mp h ⟨i, hi⟩ ⟨j, hj⟩ (Fin.mk_lt_mk.mpr hij)
  rwa [hia, hjb] at this

/-! Facts about `make_qualifiers` assembled from the pieces. -/

theorem make_qualifiers_sorted (rsrcs : List Resource) (gb : List GroupBy)
    (names : List String) : List.Sorted nodeLe (make_qualifiers rsrcs gb names) :=
  List.sorted_insertionSort nodeLe _

theorem make_qualifiers_perm_aux (rsrcs : List Resource) (gb : List GroupBy)
    (names : List String) :
    (make_qualifiers rsrcs gb names).Perm
      (mgxqAux (gb.map GroupBy.to_fct)
        (rsrcs.filter (fun a => accept_resource a.kind names)) []) := by
  have h : make_qualifiers rsrcs gb names =
      List.insertionSort nodeLe
        (make_group_x_qualifier (rsrcs.filter (fun a => accept_resource a.kind names)) []
          (gb.map GroupBy.to_fct) 0) := rfl
  rw [h, mgxq_zero]
  exact List.perm_insertionSort nodeLe _

theorem make_qualifiers_nodup_fst (rsrcs : List Resource) (gb : List GroupBy)
    (names : List String) :
    ((make_qualifiers rsrcs gb names).map Prod.fst).Nodup := by
  have hp := (make_qualifiers_perm_aux rsrcs gb names).map Prod.fst
  exact hp.nodup_iff.mpr (mgxqAux_nodup_fst _ _ _)

theorem make_qualifiers_mem_iff {rsrcs : List Resource} {gb : List GroupBy}
    {names : List String} {node : List String × Option QtyByQualifier} :
    node ∈ make_qualifiers rsrcs gb names ↔
      node ∈ mgxqAux (gb.map GroupBy.to_fct)
        (rsrcs.filter (fun a => accept_resource a.kind names)) [] :=
  (make_qualifiers_perm_aux rsrcs gb names).mem_iff

/-! Correctness of the substring test. -/

theorem listLeadsWith_iff : ∀ p l : List Char,
    listLeadsWith p l = true ↔ ∃ t, l = p ++ t := by
  intro p
  induction p with
  | nil =>
    intro l
    simp [listLeadsWith]
  | cons x ps ih =>
    intro l
    cases l with
    | nil =>
      simp [listLeadsWith]
    | cons c cs =>
      simp only [listLeadsWith, Bool.and_eq_true, beq_iff_eq, ih]
      constructor
      · rintro ⟨hx, t, ht⟩
        subst hx
        exact ⟨t, by simp [ht]⟩
      · rintro ⟨t, ht⟩
        injection ht with h1 h2
        exact ⟨h1.symm, t, h2⟩

theorem listContainsSub_iff : ∀ (p l : List Char),
    listContainsSub p l = true ↔ ∃ u v, l = u ++ p ++ v := by
  intro p l
  induction l with
  | nil =>
    simp only [listContainsSub, List.isEmpty_iff]
    constructor
    · intro h
      exact ⟨[], [], by rw [h]; rfl⟩
    · rintro ⟨u, v, huv⟩
      rcases List.append_eq_nil.mp (List.append_eq_nil.mp huv.symm).1 with ⟨_, hp⟩
      exact hp
  | cons c cs ih =>
    simp only [listContainsSub, Bool.or_eq_true, listLeadsWith_iff, ih]
    constructor
    · rintro (⟨t, ht⟩ | ⟨u, v, huv⟩)
      · exact ⟨[], t, by rw [ht]; rfl⟩
      · exact ⟨c :: u, v, by rw [huv]; rfl⟩
    · rintro ⟨u, v, huv⟩
      cases u with
      | nil =>
        left
        exact ⟨v, by simpa using huv⟩
      | cons a us =>
        right
        injection huv with h1 h2
        exact ⟨us, v, h2⟩

theorem strContains_iff (name x : String) :
    strContains name x = true ↔ ∃ u v, name.toList = u ++ x.toList ++ v :=
  listContainsSub_iff x.toList name.toList

theorem accept_resource_iff (name : String) (fil : List String) :
    accept_resource name fil = true ↔
      fil = [] ∨ ∃ x ∈ fil, ∃ u v, name.toList = u ++ x.toList ++ v := by
  simp [accept_resource, List.isEmpty_iff, List.any_eq_true, strContains_iff]

/-! The parent totals equal the accumulation of the child totals. -/

theorem foldl_joinStep_map_optAccum :
    ∀ (ls : List (List Qty)) (init : Option Qty),
      (ls.map optAccum).foldl
          (fun acc o => match o with | none => acc | some v => add acc v) init =
        ls.flatten.foldl add init := by
  intro ls
  induction ls with
  | nil => intro init; rfl
  | cons l rest ih =>
    intro init
    rw [List.map_cons, List.foldl_cons, List.flatten_cons, List.foldl_append, ih]
    congr 1
    cases l with
    | nil => rfl
    | cons x xs =>
      rw [optAccum_cons]
      cases init with
      | none => simp [add, foldl_add_some]
      | some a => simp [add, foldl_add_some, add_assoc]

theorem optJoin_map_optAccum (ls : List (List Qty)) :
    optJoin (ls.map optAccum) = optAccum ls.flatten := by
  simp only [optJoin, optAccum]
  exact foldl_joinStep_map_optAccum ls none

theorem quantList_append (q : ResourceQualifier) (a b : List Resource) :
    quantList q (a ++ b) = quantList q a ++ quantList q b := by
  simp [quantList, List.filter_append]

theorem quantList_flatMap (q : ResourceQualifier) (ks : List String)
    (h : String → List Resource) :
    quantList q (ks.flatMap h) = (ks.map (fun k => quantList q (h k))).flatten := by
  induction ks with
  | nil => rfl
  | cons k rest ih =>
    rw [List.flatMap_cons, List.map_cons, List.flatten_cons, quantList_append, ih]

theorem quantList_perm (q : ResourceQualifier) {g₁ g₂ : List Resource}
    (h : g₁.Perm g₂) : (quantList q g₁).Perm (quantList q g₂) := by
  simp only [quantList]
  exact (h.filter (fun r => r.qualifier == q)).map Resource.quantity

theorem parent_buckets (g : List Resource) (f : Resource → Option String)
    (hall : ∀ r ∈ g, (f r).isSome = true) (q : ResourceQualifier) :
    optAccum (quantList q g) =
      optJoin ((keysInOrder (keyed g f)).map
        (fun k => optAccum (quantList q (grpOf k g f)))) := by
  have hperm := grp_flatMap_perm g f hall
  have h1 : optAccum (quantList q g) =
      optAccum (quantList q ((keysInOrder (keyed g f)).flatMap (fun k => grpOf k g f))) :=
    (optAccum_perm (quantList_perm q hperm)).symm
  rw [h1, quantList_flatMap, ← optJoin_map_optAccum, List.map_map]
  rfl

/-! The claims. -/

/-- C1: `calc_free` returns a present quantity iff `allocatable` is present
and at least one of `limit`, `requested` is present; when present the result
is `allocatable - max(limit, requested)` (max over the present operands)
when `allocatable` exceeds that max and zero otherwise, and is never
negative; it is `None` when `allocatable` is absent or both `limit` and
`requested` are absent. -/
theorem calc_free_spec (t : QtyByQualifier) :
    ((t.calc_free).isSome = true ↔
      (t.allocatable.isSome = true ∧
        (t.limit.isSome = true ∨ t.requested.isSome = true)))
    ∧ (∀ a u, t.allocatable = some a → optionMax t.limit t.requested = some u →
        t.calc_free = some (if u < a then a - u else 0))
    ∧ (∀ q, t.calc_free = some q → (0 : Qty) ≤ q) := by
  refine ⟨?_, ?_, ?_⟩
  · obtain ⟨l, r, a, u⟩ := t
    cases a <;> cases l <;> cases r <;>
      simp [QtyByQualifier.calc_free, optionMax]
  · intro av uv ha hu
    simp [QtyByQualifier.calc_free, ha, hu]
  · intro q hq
    cases hA : t.allocatable with
    | none =>
      rw [QtyByQualifier.calc_free, hA] at hq
      exact Option.noConfusion hq
    | some av =>
      cases hU : optionMax t.limit t.requested with
      | none =>
        rw [QtyByQualifier.calc_free, hA, hU] at hq
        exact Option.noConfusion hq
      | some uv =>
        rw [QtyByQualifier.calc_free, hA, hU] at hq
        injection hq with hq
        rw [← hq]
        by_cases hlt : uv < av
        · rw [if_pos hlt]
          exact sub_nonneg.mpr (le_of_lt hlt)
        · rw [if_neg hlt]

/-- Witness for C1 at a concrete input: limit 3, requested 1, allocatable 2;
the max of the present operands is 3, which is not below 2, so free is 0;
and the result is present. -/
theorem calc_free_spec_witness :
    (QtyByQualifier.mk (some 3) (some 1) (some 2) none).calc_free = some 0 ∧
      ((QtyByQualifier.mk (some 3) (some 1) (some 2) none).calc_free).isSome = true := by
  constructor
  · have h := (calc_free_spec (QtyByQualifier.mk (some 3) (some 1) (some 2) none)).2.1
      2 3 rfl (by decide)
    rw [h]
    norm_num
  · exact (calc_free_spec (QtyByQualifier.mk (some 3) (some 1) (some 2) none)).1.mpr
      ⟨rfl, Or.inl rfl⟩

/-- C2 counterexample: a non-empty list whose two records carry different
kinds; `sum_by_qualifier` returns `None` on it, refuting the claim that a
present value is returned for every non-empty input (with the first
record's kind assumed). -/
theorem sum_by_qualifier_mixed_counterexample :
    [rMixA, rMixB] ≠ [] ∧ sum_by_qualifier [rMixA, rMixB] = none := by
  constructor
  · simp
  · decide

/-- C2 (amended): `sum_by_qualifier` returns a present value iff the input
is non-empty and all its records share one kind; it returns `None` both on
the empty list and on any non-empty list of mixed kinds. -/
theorem sum_by_qualifier_absent_iff (rs : List Resource) :
    (sum_by_qualifier rs).isSome = true ↔ rs ≠ [] ∧ ∃ k, ∀ r ∈ rs, r.kind = k :=
  sum_by_qualifier_isSome_iff rs

/-- Witness for the amended C2 at a concrete input. -/
theorem sum_by_qualifier_absent_iff_witness :
    (sum_by_qualifier [rMixA]).isSome = true :=
  (sum_by_qualifier_absent_iff [rMixA]).mpr ⟨by simp, "cpu", by decide⟩

/-- C5: on a non-empty single-kind list, each bucket of the sum is the
`add`-accumulation, in list order, of the quantities of exactly the records
carrying the matching qualifier, and a bucket is `None` iff no record
carries that qualifier. -/
theorem sum_by_qualifier_buckets (rs : List Resource) (hne : rs ≠ [])
    (hk : ∃ k, ∀ r ∈ rs, r.kind = k) :
    sum_by_qualifier rs =
      some ⟨optAccum (quantList ResourceQualifier.Limit rs),
            optAccum (quantList ResourceQualifier.Requested rs),
            optAccum (quantList ResourceQualifier.Allocatable rs),
            optAccum (quantList ResourceQualifier.Utilization rs)⟩
    ∧ ∀ q, (optAccum (quantList q rs) = none ↔ ∀ r ∈ rs, r.qualifier ≠ q) := by
  refine ⟨sum_by_qualifier_eq rs hne hk, ?_⟩
  intro q
  rw [optAccum_eq_none_iff]
  simp [quantList]

/-- Witness for C5 at a concrete two-record single-kind input. -/
theorem sum_by_qualifier_buckets_witness :
    sum_by_qualifier [wC5a, wC5b] = some ⟨some 3, some 5, none, none⟩ := by
  have h := (sum_by_qualifier_buckets [wC5a, wC5b] (by simp) ⟨"cpu", by decide⟩).1
  rw [h]
  decide

/-- C3: the forest returned by `make_qualifiers` is sorted in strictly
increasing lexicographic order of key paths, and this order is a valid
pre-order: for every node whose path has length at least 2 a node carrying
the parent path occurs earlier in the list, and between a node and any of
its descendants only descendants of that node occur (descendants are
contiguous after it). -/
theorem make_qualifiers_sorted_preorder (rsrcs : List Resource) (gb : List GroupBy)
    (names : List String) :
    (make_qualifiers rsrcs gb names).Pairwise (fun a b => a.1 < b.1)
    ∧ (∀ j p t, (make_qualifiers rsrcs gb names).get? j = some (p, t) →
        2 ≤ p.length →
        ∃ i q t2, i < j ∧ (make_qualifiers rsrcs gb names).get? i = some (q, t2) ∧
          q = p.dropLast)
    ∧ (∀ i k j a b c, i < k → k < j →
        (make_qualifiers rsrcs gb names).get? i = some a →
        (make_qualifiers rsrcs gb names).get? k = some b →
        (make_qualifiers rsrcs gb names).get? j = some c →
        properExt a.1 c.1 → properExt a.1 b.1) := by
  have hpw : (make_qualifiers rsrcs gb names).Pairwise (fun a b => a.1 < b.1) :=
    sorted_strict (make_qualifiers_sorted rsrcs gb names)
      (make_qualifiers_nodup_fst rsrcs gb names)
  refine ⟨hpw, ?_, ?_⟩
  · intro j p t hj hlen
    have hmem : (p, t) ∈ make_qualifiers rsrcs gb names := List.get?_mem hj
    rw [make_qualifiers_mem_iff] at hmem
    obtain ⟨t2, ht2⟩ := mgxqAux_parent _ _ _ _ hmem (by simpa using hlen)
    have hmem2 : ((p, t).1.dropLast, t2) ∈ make_qualifiers rsrcs gb names :=
      make_qualifiers_mem_iff.mpr ht2
    obtain ⟨i, hi⟩ := List.get?_of_mem hmem2
    refine ⟨i, p.dropLast, t2, ?_, hi, rfl⟩
    have hpe : properExt p.dropLast p := by
      have hpne : p ≠ [] := by
        intro hnil
        rw [hnil] at hlen
        simp at hlen
      exact ⟨[p.getLast hpne], by simp, (List.dropLast_concat_getLast hpne).symm⟩
    have hlt : p.dropLast < p := lt_of_properExt hpe
    rcases lt_trichotomy i j with h | h | h
    · exact h
    · exfalso
      subst h
      rw [hj] at hi
      injection hi with hi
      have : p.dropLast.length = p.length := by rw [(Prod.mk.injEq _ _ _ _).mp hi.symm |>.1]
      rw [List.length_dropLast] at this
      omega
    · exfalso
      have := pairwise_get? hpw h hj hi
      exact absurd hlt (lt_asymm this)
  · intro i k j a b c hik hkj ha hb hc hac
    have h1 := pairwise_get? hpw hik ha hb
    have h2 := pairwise_get? hpw hkj hb hc
    exact path_lt_sandwich h1 h2 hac

theorem make_qualifiers_eval (rsrcs : List Resource) (gb : List GroupBy)
    (names : List String) :
    make_qualifiers rsrcs gb names =
      List.insertionSort nodeLe
        (mgxqAux (gb.map GroupBy.to_fct)
          (rsrcs.filter (fun a => accept_resource a.kind names)) []) := by
  show List.insertionSort nodeLe
      (make_group_x_qualifier (rsrcs.filter (fun a => accept_resource a.kind names)) []
        (gb.map GroupBy.to_fct) 0) = _
  rw [mgxq_zero]

/-- Witness for C3: with one cpu record on node n1 grouped by resource then
node, the node at index 1 carries path cpu/n1, and a node carrying its
parent path occurs at an earlier index. -/
theorem make_qualifiers_sorted_preorder_witness :
    ∃ i q t2, i < 1 ∧
      (make_qualifiers [wRec1] [GroupBy.resource, GroupBy.node] []).get? i =
        some (q, t2) ∧
      q = (["cpu", "n1"] : List String).dropLast :=
  (make_qualifiers_sorted_preorder [wRec1] [GroupBy.resource, GroupBy.node] []).2.1
    1 ["cpu", "n1"] (some ⟨none, none, some 1, none⟩)
    (by rw [make_qualifiers_eval]; decide) (by decide)

/-- C4: `make_qualifiers` is deterministic and permutation-invariant — two
record collections that are permutations of each other produce identical
output lists (same paths in the same order with equal totals), for every
grouping list and resource filter. -/
theorem make_qualifiers_perm_invariant (l₁ l₂ : List Resource) (gb : List GroupBy)
    (names : List String) (h : l₁.Perm l₂) :
    make_qualifiers l₁ gb names = make_qualifiers l₂ gb names := by
  apply eq_of_perm_sorted_nodup
  · have h1 := make_qualifiers_perm_aux l₁ gb names
    have h2 := make_qualifiers_perm_aux l₂ gb names
    have hf : (l₁.filter (fun a => accept_resource a.kind names)).Perm
        (l₂.filter (fun a => accept_resource a.kind names)) :=
      h.filter (fun a => accept_resource a.kind names)
    exact h1.trans ((mgxqAux_perm _ _ _ _ hf).trans h2.symm)
  · exact make_qualifiers_sorted l₁ gb names
  · exact make_qualifiers_sorted l₂ gb names
  · exact make_qualifiers_nodup_fst l₁ gb names

/-- Witness for C4 at a concrete pair of swapped two-record lists. -/
theorem make_qualifiers_perm_invariant_witness :
    make_qualifiers [wC6a, wC6b] [GroupBy.resource, GroupBy.node] [] =
      make_qualifiers [wC6b, wC6a] [GroupBy.resource, GroupBy.node] [] :=
  make_qualifiers_perm_invariant [wC6a, wC6b] [wC6b, wC6a]
    [GroupBy.resource, GroupBy.node] [] (List.Perm.swap wC6b wC6a [])

/-- C6: for a node with present totals `t` aggregating the group `g`, if
the key-extraction function `f` of the next grouping depth yields a key for
every record of `g` (no record dropped), then for each qualifier the
parent's bucket equals the `add`-accumulation of the direct children's
buckets — the children being exactly the per-key groups
`grpOf k g f` for `k` in `keysInOrder (keyed g f)`, as built by
`make_group_x_qualifier` at the next depth. -/
theorem parent_total_eq_children_total (g : List Resource)
    (f : Resource → Option String) (t : QtyByQualifier)
    (ht : sum_by_qualifier g = some t)
    (hall : ∀ r ∈ g, (f r).isSome = true) (q : ResourceQualifier) :
    bucketGet q t =
      optJoin ((keysInOrder (keyed g f)).map
        (fun k => (sum_by_qualifier (grpOf k g f)).bind (bucketGet q))) := by
  have hsome : (sum_by_qualifier g).isSome = true := by
    rw [ht]
    rfl
  obtain ⟨hne, hk⟩ := (sum_by_qualifier_isSome_iff g).mp hsome
  have heq := sum_by_qualifier_eq g hne hk
  rw [ht] at heq
  injection heq with heq
  have hbt : bucketGet q t = optAccum (quantList q g) := by
    rw [heq]
    cases q <;> rfl
  rw [hbt, parent_buckets g f hall q]
  congr 1
  apply List.map_congr_left
  intro k hk2
  obtain ⟨k0, hk0⟩ := hk
  have hne2 : grpOf k g f ≠ [] := grpOf_ne_nil hk2
  have huni : ∃ k2, ∀ r ∈ grpOf k g f, r.kind = k2 :=
    ⟨k0, fun r hr => hk0 r (mem_grpOf.mp hr).1⟩
  rw [sum_by_qualifier_eq _ hne2 huni]
  cases q <;> rfl

/-- Witness for C6: two same-kind records on different nodes; the requested
bucket of the parent equals the accumulation of the children's requested
buckets. -/
theorem parent_total_eq_children_total_witness :
    bucketGet ResourceQualifier.Requested
        (QtyByQualifier.mk (some 3) (some 2) none none) =
      optJoin ((keysInOrder (keyed [wC6a, wC6b] GroupBy.extract_node_name)).map
        (fun k => (sum_by_qualifier (grpOf k [wC6a, wC6b] GroupBy.extract_node_name)).bind
          (bucketGet ResourceQualifier.Requested))) :=
  parent_total_eq_children_total [wC6a, wC6b] GroupBy.extract_node_name
    (QtyByQualifier.mk (some 3) (some 2) none none) (by decide) (by decide)
    ResourceQualifier.Requested

theorem keyed_filter_isSome (g : List Resource) (f : Resource → Option String) :
    keyed (g.filter (fun e => (f e).isSome)) f = keyed g f := by
  simp only [keyed]
  induction g with
  | nil => rfl
  | cons r rest ih =>
    cases hr : f r with
    | none => simp [List.filter_cons, List.filterMap_cons, hr, ih]
    | some k => simp [List.filter_cons, List.filterMap_cons, hr, ih]

theorem grpOf_filter_isSome (k : String) (g : List Resource)
    (f : Resource → Option String) :
    grpOf k (g.filter (fun e => (f e).isSome)) f = grpOf k g f := by
  simp only [grpOf, keyed_filter_isSome]

/-- C7: a record whose key-extraction function returns `None` at a grouping
depth is silently dropped from that entire subtree — the output of
`make_group_x_qualifier` is unchanged when such records are removed up
front — and `extract_pod_name` returns `None` exactly on the synthetic
`pods` records, so they join no group at a pod grouping level. -/
theorem none_key_dropped (g : List Resource) (pref : List String)
    (fcts : List (Resource → Option String)) (d : Nat) :
    (make_group_x_qualifier g pref fcts d =
      make_group_x_qualifier
        (match fcts.get? d with
         | none => g
         | some f => g.filter (fun e => (f e).isSome)) pref fcts d)
    ∧ (∀ e : Resource, e.kind = "pods" → GroupBy.extract_pod_name e = none)
    ∧ (∀ (k : String) (rs : List Resource) (r : Resource), r.kind = "pods" →
        r ∉ grpOf k rs GroupBy.extract_pod_name) := by
  refine ⟨?_, ?_, ?_⟩
  · cases hg : fcts.get? d with
    | none =>
      rw [mgxq_none hg]
    | some f =>
      rw [mgxq_some hg, mgxq_some hg]
      simp only [grpOf_filter_isSome, keyed_filter_isSome]
  · intro e he
    simp [GroupBy.extract_pod_name, he]
  · intro k rs r hkind hmem
    have h := (mem_grpOf.mp hmem).2
    rw [show GroupBy.extract_pod_name r = none by
      simp [GroupBy.extract_pod_name, hkind]] at h
    exact Option.noConfusion h

/-- Witness for C7: the concrete pods record is not grouped under its own
pod name, and its pod key is absent. -/
theorem none_key_dropped_witness :
    GroupBy.extract_pod_name wPods = none ∧
      wPods ∉ grpOf "p1" [wPods] GroupBy.extract_pod_name :=
  ⟨(none_key_dropped [] [] [] 0).2.1 wPods rfl,
   (none_key_dropped [] [] [] 0).2.2 "p1" [wPods] wPods rfl⟩

/-- C8: `accept_resource` returns true iff the filter is empty or some
filter entry is a substring of the name; `make_qualifiers` groups exactly
the accepted records: with an empty filter the record list is used
unfiltered, and for records whose kinds are cpu or memory the filter
`["memory"]` removes every cpu record from the forest entirely. -/
theorem accept_resource_filter_spec :
    (∀ (name : String) (fil : List String),
      accept_resource name fil = true ↔
        fil = [] ∨ ∃ x ∈ fil, ∃ u v, name.toList = u ++ x.toList ++ v)
    ∧ (∀ rsrcs : List Resource,
        rsrcs.filter (fun a => accept_resource a.kind []) = rsrcs)
    ∧ (∀ (rsrcs : List Resource) (gb : List GroupBy),
        (∀ r ∈ rsrcs, r.kind = "cpu" ∨ r.kind = "memory") →
        make_qualifiers rsrcs gb ["memory"] =
          make_qualifiers (rsrcs.filter (fun r => r.kind == "memory")) gb ["memory"]) := by
  refine ⟨accept_resource_iff, ?_, ?_⟩
  · intro rsrcs
    apply List.filter_eq_self.mpr
    intro r _
    rfl
  · intro rsrcs gb hmix
    have hfil : rsrcs.filter (fun a => accept_resource a.kind ["memory"]) =
        rsrcs.filter (fun r => r.kind == "memory") := by
      apply List.filter_congr
      intro r hr
      cases hmix r hr with
      | inl h =>
        rw [h]
        rfl
      | inr h =>
        rw [h]
        rfl
    have hfil2 : (rsrcs.filter (fun r => r.kind == "memory")).filter
        (fun a => accept_resource a.kind ["memory"]) =
        rsrcs.filter (fun r => r.kind == "memory") := by
      apply List.filter_eq_self.mpr
      intro r hr
      have hk : r.kind = "memory" := beq_iff_eq.mp (List.mem_filter.mp hr).2
      rw [hk]
      rfl
    show List.insertionSort nodeLe
        (make_group_x_qualifier
          (rsrcs.filter (fun a => accept_resource a.kind ["memory"])) []
          (gb.map GroupBy.to_fct) 0) =
      List.insertionSort nodeLe
        (make_group_x_qualifier
          ((rsrcs.filter (fun r => r.kind == "memory")).filter
            (fun a => accept_resource a.kind ["memory"])) []
          (gb.map GroupBy.to_fct) 0)
    rw [hfil, hfil2]

/-- Witness for C8: a substring filter hit, and the concrete cpu/memory
scenario where the cpu record is excluded from the forest. -/
theorem accept_resource_filter_spec_witness :
    accept_resource "cpu" ["cp"] = true ∧
      make_qualifiers [wCpu, wMem] [GroupBy.resource] ["memory"] =
        make_qualifiers ([wCpu, wMem].filter (fun r => r.kind == "memory"))
          [GroupBy.resource] ["memory"] :=
  ⟨accept_resource_filter_spec.1 "cpu" ["cp"] |>.mpr
    (Or.inr ⟨"cp", by simp, [], ['u'], by decide⟩),
   accept_resource_filter_spec.2.2 [wCpu, wMem] [GroupBy.resource] (by decide)⟩

theorem suffix_factor_ne_zero (s : Suffix) : s.factor ≠ 0 := by
  cases s <;> norm_num [Suffix.factor]

/-- C9 (modelled from the spec, the quantity module not being among the
sources): parsing succeeds on every well-formed numeric literal followed by
a supported suffix, and formatting the parsed quantity denotes exactly the
numeric value the input text denotes — formatting is numerically a right
inverse of parsing for every supported suffix. -/
theorem parse_format_roundtrip (lit : NumLit) (suf : Suffix)
    (hwf : lit.fracDigits.all (fun d => d < 10) = true) :
    ∃ q, parseQty lit suf = some q ∧
      textValue (formatQty q) = lit.value * suf.factor := by
  refine ⟨⟨lit.value * suf.factor, suf.family⟩, ?_, ?_⟩
  · simp [parseQty, hwf]
  · simp only [formatQty, textValue]
    exact div_mul_cancel₀ _ (suffix_factor_ne_zero _)

/-- Witness for C9: the text 1.5m parses and formats back to the same
numeric value. -/
theorem parse_format_roundtrip_witness :
    ∃ q, parseQty ⟨1, [5]⟩ Suffix.m = some q ∧
      textValue (formatQty q) = NumLit.value ⟨1, [5]⟩ * Suffix.factor Suffix.m :=
  parse_format_roundtrip ⟨1, [5]⟩ Suffix.m (by decide)

/-- C10: every node of `make_qualifiers` aggregates a non-empty group drawn
from the input records and carries a key path of length at least 1; its
totals equal `sum_by_qualifier` of that group and are absent exactly when
the group's records do not all share one kind; an empty grouping list
yields an empty output; and when `resource` is the first grouping dimension
every emitted node carries present totals. -/
theorem make_qualifiers_node_invariants :
    (∀ (rsrcs : List Resource) (gb : List GroupBy) (names : List String)
        (node : List String × Option QtyByQualifier),
        node ∈ make_qualifiers rsrcs gb names →
        1 ≤ node.1.length ∧
        ∃ g, g ≠ [] ∧ (∀ r ∈ g, r ∈ rsrcs) ∧ node.2 = sum_by_qualifier g ∧
          (node.2 = none ↔ ¬ ∃ k, ∀ r ∈ g, r.kind = k))
    ∧ (∀ (rsrcs : List Resource) (names : List String),
        make_qualifiers rsrcs [] names = [])
    ∧ (∀ (rsrcs : List Resource) (gb : List GroupBy) (names : List String)
        (node : List String × Option QtyByQualifier),
        gb.head? = some GroupBy.resource → node ∈ make_qualifiers rsrcs gb names →
        node.2.isSome = true) := by
  refine ⟨?_, ?_, ?_⟩
  · intro rsrcs gb names node hmem
    rw [make_qualifiers_mem_iff] at hmem
    constructor
    · obtain ⟨s, hs, hn⟩ := mgxqAux_extends _ _ _ _ hmem
      rw [hn]
      simp only [List.nil_append]
      cases s with
      | nil => exact absurd rfl hs
      | cons x xs => simp
    · obtain ⟨g, hne, hsub, hval⟩ := mgxqAux_group _ _ _ _ hmem
      refine ⟨g, hne, ?_, hval, ?_⟩
      · intro r hr
        exact (List.mem_filter.mp (hsub r hr)).1
      · rw [hval]
        constructor
        · intro hnone hk
          have : (sum_by_qualifier g).isSome = true :=
            (sum_by_qualifier_isSome_iff g).mpr ⟨hne, hk⟩
          rw [hnone] at this
          exact Bool.noConfusion this
        · intro hnk
          cases hv : sum_by_qualifier g with
          | none => rfl
          | some t =>
            have : (sum_by_qualifier g).isSome = true := by
              rw [hv]
              rfl
            exact absurd ((sum_by_qualifier_isSome_iff g).mp this).2 hnk
  · intro rsrcs names
    rw [make_qualifiers_eval]
    rfl
  · intro rsrcs gb names node hhead hmem
    rw [make_qualifiers_mem_iff] at hmem
    cases gb with
    | nil => exact absurd hhead (by simp)
    | cons g0 gbt =>
      have hg0 : g0 = GroupBy.resource := by
        simpa using hhead
      subst hg0
      rw [List.map_cons] at hmem
      have hfct : GroupBy.to_fct GroupBy.resource = GroupBy.extract_kind := rfl
      rw [hfct] at hmem
      simp only [mgxqAux, List.mem_flatMap] at hmem
      obtain ⟨key, hkey, hmem2⟩ := hmem
      have huni : ∃ k, ∀ r ∈ grpOf key
          (rsrcs.filter (fun a => accept_resource a.kind names))
          GroupBy.extract_kind, r.kind = k := by
        refine ⟨key, ?_⟩
        intro r hr
        have h2 := (mem_grpOf.mp hr).2
        simp only [GroupBy.extract_kind] at h2
        injection h2
      cases List.mem_cons.mp hmem2 with
      | inl heq =>
        rw [heq]
        exact (sum_by_qualifier_isSome_iff _).mpr ⟨grpOf_ne_nil hkey, huni⟩
      | inr hin => exact mgxqAux_uniform _ _ _ huni node hin

/-- Witness for C10: the single cpu record grouped by resource produces a
node with present totals. -/
theorem make_qualifiers_node_invariants_witness :
    ((["cpu"], sum_by_qualifier [wRec1]) :
      List String × Option QtyByQualifier).2.isSome = true :=
  make_qualifiers_node_invariants.2.2 [wRec1] [GroupBy.resource] []
    (["cpu"], sum_by_qualifier [wRec1]) rfl
    (by rw [make_qualifiers_eval]; decide)
